import Mathlib

/-!
Shallow embedding of the `unique_contact` aggregation function of the
webitel Terraform provider (`internal/provider/unique_contact_function.go`),
together with the helper `stripSpaces` (`internal/provider/contact_resource.go`).

Records are string-keyed rows (Go `map[string]string`, missing key reads as
`""`); the accumulator `seen` (Go `map[string]contact`) and the per-contact
variable map (Go `map[string]string`) are modelled as association lists with
unique keys, carrying the exact lookup/update semantics of Go maps.
Diagnostic warnings (`tflog.Warn`) are modelled explicitly so that the
warning-versus-error policy is statable.
-/

/-- Go `unicode.IsSpace`: in Latin-1, space, tab, newline, vertical tab, form
feed, carriage return, NEL and NBSP; above Latin-1, the `White_Space` code
points U+1680, U+2000..U+200A, U+2028, U+2029, U+202F, U+205F and U+3000. -/
def goIsSpace (c : Char) : Bool :=
  c == ' ' || c == '\t' || c == '\n' || c == '\x0b' || c == '\x0c' || c == '\r' ||
    c == '\u0085' || c == '\u00A0' || c == '\u1680' ||
    c == '\u2000' || c == '\u2001' || c == '\u2002' || c == '\u2003' ||
    c == '\u2004' || c == '\u2005' || c == '\u2006' || c == '\u2007' ||
    c == '\u2008' || c == '\u2009' || c == '\u200A' || c == '\u2028' ||
    c == '\u2029' || c == '\u202F' || c == '\u205F' || c == '\u3000'

/-- Core of Go `strings.Fields`: split a character list around runs of
whitespace, dropping empty fields.  `acc` is the (reversed) current field. -/
def fieldsAux : List Char → List Char → List (List Char)
  | [], acc => if acc = [] then [] else [acc.reverse]
  | c :: cs, acc =>
    if goIsSpace c then
      if acc = [] then fieldsAux cs [] else acc.reverse :: fieldsAux cs []
    else fieldsAux cs (c :: acc)

/-- Go `strings.Fields`. -/
def goFields (s : String) : List String :=
  (fieldsAux s.data []).map String.mk

/-- Go `stripSpaces(in string) string { return strings.Join(strings.Fields(in), " ") }`. -/
def stripSpaces (s : String) : String :=
  String.intercalate " " (goFields s)

/-- `"+" + destinationRegexp.ReplaceAllString(x, "")` where
`destinationRegexp = regexp.MustCompile(\D)`: strip every non-digit
character, then prefix `+`. -/
def normalizeDestination (s : String) : String :=
  "+" ++ String.mk (s.data.filter Char.isDigit)

/-- Go struct `destination { code, destination string }`. -/
structure Destination where
  code : String
  destination : String
deriving DecidableEq, Repr

/-- Go struct `contact` (the `sync.Mutex` handle is not part of the data;
`vars` models the Go field `variables`, a name Lean reserves). -/
structure Contact where
  name : String
  destinations : List Destination
  labels : List String
  vars : List (String × String)
deriving DecidableEq, Repr

/-- One input row: Go `map[string]string`. -/
abbrev Record := List (String × String)

/-- Go map read `v[k]`: a missing key yields the zero value `""`. -/
def getField : Record → String → String
  | [], _ => ""
  | p :: v, k => if p.1 = k then p.2 else getField v k

/-- Go `UniqueContactModel` after `listToLabels` decoding of the lists. -/
structure MappingConfig where
  nameField : String
  codeField : String
  destinationField : String
  labelFields : List String
  variableFields : List String
  groupByFields : List String
deriving DecidableEq, Repr

/-- Go map read on the per-contact variables map. -/
def lookupVar : List (String × String) → String → Option String
  | [], _ => none
  | p :: vs, f => if p.1 = f then some p.2 else lookupVar vs f

/-- Go `_, ok := c.variables[field]` presence check. -/
def containsVar : List (String × String) → String → Bool
  | [], _ => false
  | p :: vs, f => if p.1 = f then true else containsVar vs f

/-- Go map write `c.variables[field] = x`. -/
def setVar : List (String × String) → String → String → List (String × String)
  | [], f, x => [(f, x)]
  | p :: vs, f, x => if p.1 = f then (f, x) :: vs else p :: setVar vs f x

/-- Diagnostic events (`tflog.Warn` calls) of one aggregation run. -/
inductive Warning where
  | emptyName : Warning
  | overwrite : String → Warning
deriving DecidableEq, Repr

/-- The `for _, field := range variableFields` loop of `Run`: assign every
declared variable field from the record, emitting an overwrite warning when
the field is already present. -/
def setVarsW (v : Record) : List String → List (String × String) × List Warning →
    List (String × String) × List Warning
  | [], st => st
  | f :: fs, (vs, w) =>
    let w := if containsVar vs f then w ++ [Warning.overwrite f] else w
    setVarsW v fs (setVar vs f (getField v f), w)

/-- The same loop, warnings ignored. -/
def varFold (v : Record) : List String → List (String × String) → List (String × String)
  | [], vs => vs
  | f :: fs, vs => varFold v fs (setVar vs f (getField v f))

/-- The accumulator `seen` of `Run`: Go `map[string]contact`. -/
abbrev Seen := List (String × Contact)

/-- Go map read `seen[key]`. -/
def lookupC : Seen → String → Option Contact
  | [], _ => none
  | p :: s, k => if p.1 = k then some p.2 else lookupC s k

/-- Go map write `seen[key] = c`. -/
def updateSeen : Seen → String → Contact → Seen
  | [], k, c => [(k, c)]
  | p :: s, k, c => if p.1 = k then (k, c) :: s else p :: updateSeen s k c

/-- The `keyFields` slice of `Run`: values of `group_by_fields` that are
non-empty in the record, in declared order. -/
def keyFieldsOf (m : MappingConfig) (v : Record) : List String :=
  (m.groupByFields.map (fun f => getField v f)).filter (fun s => decide (s ≠ ""))

/-- The `key` of `Run`: the joined non-empty group-by values, or the
(already stripped) name when none were collected. -/
def keyOf (m : MappingConfig) (v : Record) (name : String) : String :=
  if keyFieldsOf m v = [] then name else String.intercalate "-" (keyFieldsOf m v)

/-- One iteration of the `for i, v := range elements` loop of `Run`:
state is the pair of the `seen` map and the warnings emitted so far. -/
def runStep (m : MappingConfig) (st : Seen × List Warning) (v : Record) :
    Seen × List Warning :=
  let name := stripSpaces (getField v m.nameField)
  if name = "" then (st.1, st.2 ++ [Warning.emptyName])
  else
    let key := keyOf m v name
    let c0 : Contact :=
      match lookupC st.1 key with
      | some c => c
      | none => ⟨name, [], [], []⟩
    let labels := m.labelFields.map (fun f => getField v f)
    let d : Destination :=
      ⟨getField v m.codeField, normalizeDestination (getField v m.destinationField)⟩
    let vw := setVarsW v m.variableFields (c0.vars, st.2)
    let c : Contact := ⟨c0.name, c0.destinations ++ [d], c0.labels ++ labels, vw.1⟩
    (updateSeen st.1 key c, vw.2)

/-- The `seen` component of one loop iteration. -/
def processRecord (m : MappingConfig) (s : Seen) (v : Record) : Seen :=
  (runStep m (s, []) v).1

/-- The whole record loop of `Run`, with warnings. -/
def runAll (rs : List Record) (m : MappingConfig) : Seen × List Warning :=
  rs.foldl (runStep m) ([], [])

/-- The `seen` map after the record loop. -/
def aggregateRaw (rs : List Record) (m : MappingConfig) : Seen :=
  rs.foldl (processRecord m) []

/-- The label output loop of `Run`: drop every label already in `seenLabels`,
keeping first occurrences. -/
def dedupLabels (seen : List String) : List String → List String
  | [] => []
  | x :: xs =>
    if seen.contains x then dedupLabels seen xs
    else x :: dedupLabels (x :: seen) xs

/-- The destination output loop of `Run`: drop every destination whose
normalized `destination` string is already in `seenDestination`. -/
def dedupDestinations (seen : List String) : List Destination → List Destination
  | [] => []
  | d :: ds =>
    if seen.contains d.destination then dedupDestinations seen ds
    else d :: dedupDestinations (d.destination :: seen) ds

/-- The per-contact output pass of `Run`. -/
def finalizeContact (c : Contact) : Contact :=
  ⟨c.name, dedupDestinations [] c.destinations, dedupLabels [] c.labels, c.vars⟩

/-- `aggregate(records, mapping)`: the full deduplicating aggregation of `Run`
(record loop followed by the per-group output pass). -/
def aggregate (rs : List Record) (m : MappingConfig) : Seen :=
  (aggregateRaw rs m).map (fun p => (p.1, finalizeContact p.2))

/-- The group key a record is assigned to, `none` when it is skipped for an
empty name (extracted from the head of the loop body of `Run`). -/
def groupOf (m : MappingConfig) (v : Record) : Option String :=
  let name := stripSpaces (getField v m.nameField)
  if name = "" then none else some (keyOf m v name)

/-- The fresh contact `Run` creates on first sight of a key. -/
def initContact (m : MappingConfig) (v : Record) : Contact :=
  ⟨stripSpaces (getField v m.nameField), [], [], []⟩

/-- The destination one record contributes. -/
def mkDestination (m : MappingConfig) (v : Record) : Destination :=
  ⟨getField v m.codeField, normalizeDestination (getField v m.destinationField)⟩

/-- What one record adds to its group's contact. -/
def extendContact (m : MappingConfig) (c : Contact) (v : Record) : Contact :=
  ⟨c.name, c.destinations ++ [mkDestination m v],
    c.labels ++ m.labelFields.map (fun f => getField v f),
    varFold v m.variableFields c.vars⟩

/-- The records of `rs` assigned to group key `k`, in input order. -/
def groupRecords (m : MappingConfig) (rs : List Record) (k : String) : List Record :=
  rs.filter (fun v => decide (groupOf m v = some k))

/-- First destination of a list carrying a given normalized string. -/
def findDest : List Destination → String → Option Destination
  | [], _ => none
  | d :: ds, s => if d.destination = s then some d else findDest ds s

/-! ### Association-list lemmas -/

theorem lookupC_updateSeen_self (s : Seen) (k : String) (c : Contact) :
    lookupC (updateSeen s k c) k = some c := by
  induction s with
  | nil => simp [updateSeen, lookupC]
  | cons p s ih =>
    by_cases h : p.1 = k
    · simp [updateSeen, h, lookupC]
    · simp [updateSeen, h, lookupC, ih]

theorem lookupC_updateSeen_ne (s : Seen) (k k' : String) (c : Contact) (h : k' ≠ k) :
    lookupC (updateSeen s k c) k' = lookupC s k' := by
  have h0 : ¬(k = k') := fun hh => h hh.symm
  induction s with
  | nil => simp [updateSeen, lookupC, h0]
  | cons p s ih =>
    by_cases hp : p.1 = k
    · have hp' : ¬(p.1 = k') := by rw [hp]; exact h0
      simp [updateSeen, lookupC, hp, hp', h0]
    · by_cases hp' : p.1 = k'
      · simp [updateSeen, hp, lookupC, hp', h]
      · simp [updateSeen, hp, lookupC, hp', ih]

theorem lookupVar_setVar_self (vs : List (String × String)) (f x : String) :
    lookupVar (setVar vs f x) f = some x := by
  induction vs with
  | nil => simp [setVar, lookupVar]
  | cons p vs ih =>
    by_cases h : p.1 = f
    · simp [setVar, h, lookupVar]
    · simp [setVar, h, lookupVar, ih]

theorem lookupVar_setVar_ne (vs : List (String × String)) (f g x : String) (h : g ≠ f) :
    lookupVar (setVar vs g x) f = lookupVar vs f := by
  induction vs with
  | nil => simp [setVar, lookupVar, h]
  | cons p vs ih =>
    by_cases hp : p.1 = g
    · have hp' : ¬(p.1 = f) := by rw [hp]; exact h
      simp [setVar, lookupVar, hp, hp', h]
    · by_cases hp' : p.1 = f
      · have h2 : ¬(f = g) := fun hh => h hh.symm
        simp [setVar, hp, lookupVar, hp', h2]
      · simp [setVar, hp, lookupVar, hp', ih]

theorem containsVar_eq_isSome (vs : List (String × String)) (f : String) :
    containsVar vs f = (lookupVar vs f).isSome := by
  induction vs with
  | nil => simp [containsVar, lookupVar]
  | cons p vs ih =>
    by_cases h : p.1 = f
    · simp [containsVar, h, lookupVar]
    · simp [containsVar, h, lookupVar, ih]

theorem containsVar_setVar (vs : List (String × String)) (f g x : String) :
    containsVar (setVar vs g x) f = (containsVar vs f || decide (g = f)) := by
  by_cases h : g = f
  · subst h
    simp [containsVar_eq_isSome, lookupVar_setVar_self]
  · simp [containsVar_eq_isSome, lookupVar_setVar_ne vs f g x h, h]

/-! ### The variable-assignment loop -/

theorem setVarsW_fst (v : Record) (fs : List String) :
    ∀ (vs : List (String × String)) (w : List Warning),
      (setVarsW v fs (vs, w)).1 = varFold v fs vs := by
  induction fs with
  | nil => intro vs w; simp [setVarsW, varFold]
  | cons f fs ih => intro vs w; simp [setVarsW, varFold, ih]

theorem setVarsW_warn_mono (v : Record) (fs : List String) :
    ∀ (vs : List (String × String)) (w : List Warning) (x : Warning),
      x ∈ w → x ∈ (setVarsW v fs (vs, w)).2 := by
  induction fs with
  | nil => intro vs w x hx; simpa [setVarsW] using hx
  | cons f fs ih =>
    intro vs w x hx
    by_cases h : containsVar vs f
    · simp only [setVarsW, h, if_pos]
      exact ih _ _ _ (by simp [hx])
    · simp only [setVarsW, h, if_neg, Bool.false_eq_true, not_false_iff]
      exact ih _ _ _ hx

theorem setVarsW_overwrite (v : Record) (fs : List String) :
    ∀ (vs : List (String × String)) (w : List Warning) (f : String),
      f ∈ fs → containsVar vs f = true →
      Warning.overwrite f ∈ (setVarsW v fs (vs, w)).2 := by
  induction fs with
  | nil => intro vs w f hf; simp at hf
  | cons g fs ih =>
    intro vs w f hf hc
    by_cases hg : g = f
    · subst hg
      simp only [setVarsW, hc, if_pos]
      exact setVarsW_warn_mono v fs _ _ _ (by simp)
    · have hf' : f ∈ fs := by
        rcases List.mem_cons.1 hf with h | h
        · exact absurd h.symm hg
        · exact h
      have hc' : containsVar (setVar vs g (getField v g)) f = true := by
        simp [containsVar_setVar, hc]
      by_cases h : containsVar vs g
      · simp only [setVarsW, h, if_pos]
        exact ih _ _ _ hf' hc'
      · simp only [setVarsW, h, if_neg, Bool.false_eq_true, not_false_iff]
        exact ih _ _ _ hf' hc'

theorem lookupVar_varFold_not_mem (v : Record) (fs : List String) :
    ∀ (vs : List (String × String)) (f : String), f ∉ fs →
      lookupVar (varFold v fs vs) f = lookupVar vs f := by
  induction fs with
  | nil => intro vs f _; simp [varFold]
  | cons g fs ih =>
    intro vs f hf
    have hg : g ≠ f := fun h => hf (h ▸ List.mem_cons_self g fs)
    have hf' : f ∉ fs := fun h => hf (List.mem_cons_of_mem g h)
    simp [varFold, ih _ _ hf', lookupVar_setVar_ne vs f g _ hg]

theorem lookupVar_varFold_mem (v : Record) (fs : List String) :
    ∀ (vs : List (String × String)) (f : String), f ∈ fs →
      lookupVar (varFold v fs vs) f = some (getField v f) := by
  induction fs with
  | nil => intro vs f hf; simp at hf
  | cons g fs ih =>
    intro vs f hf
    by_cases hf' : f ∈ fs
    · simp [varFold, ih _ _ hf']
    · have hg : g = f := by
        rcases List.mem_cons.1 hf with h | h
        · exact h.symm
        · exact absurd h hf'
      subst hg
      simp [varFold, lookupVar_varFold_not_mem v fs _ _ hf', lookupVar_setVar_self]

theorem containsVar_varFold (v : Record) (fs : List String)
    (vs : List (String × String)) (f : String) :
    containsVar (varFold v fs vs) f = (containsVar vs f || decide (f ∈ fs)) := by
  by_cases hf : f ∈ fs
  · simp [containsVar_eq_isSome, lookupVar_varFold_mem v fs vs f hf, hf]
  · simp [containsVar_eq_isSome, lookupVar_varFold_not_mem v fs vs f hf, hf]

/-! ### One loop iteration, characterized -/

theorem groupOf_none_iff (m : MappingConfig) (v : Record) :
    groupOf m v = none ↔ stripSpaces (getField v m.nameField) = "" := by
  unfold groupOf
  by_cases h : stripSpaces (getField v m.nameField) = "" <;> simp [h]

theorem runStep_empty (m : MappingConfig) (v : Record) (s : Seen) (w : List Warning)
    (h : stripSpaces (getField v m.nameField) = "") :
    runStep m (s, w) v = (s, w ++ [Warning.emptyName]) := by
  unfold runStep
  simp [h]

theorem runStep_key (m : MappingConfig) (v : Record) (s : Seen) (w : List Warning)
    (k : String) (h : groupOf m v = some k) :
    runStep m (s, w) v =
      (updateSeen s k (extendContact m ((lookupC s k).getD (initContact m v)) v),
        (setVarsW v m.variableFields (((lookupC s k).getD (initContact m v)).vars, w)).2) := by
  unfold groupOf at h
  by_cases hn : stripSpaces (getField v m.nameField) = ""
  · simp [hn] at h
  · simp only [hn, if_false, Option.some.injEq, if_neg] at h
    subst h
    unfold runStep
    cases hl : lookupC s (keyOf m v (stripSpaces (getField v m.nameField))) with
    | none => simp [hn, hl, extendContact, initContact, mkDestination, setVarsW_fst]
    | some c => simp [hn, hl, extendContact, initContact, mkDestination, setVarsW_fst]

theorem processRecord_empty (m : MappingConfig) (v : Record) (s : Seen)
    (h : groupOf m v = none) : processRecord m s v = s := by
  unfold processRecord
  rw [runStep_empty m v s [] ((groupOf_none_iff m v).1 h)]

theorem processRecord_key (m : MappingConfig) (v : Record) (s : Seen) (k : String)
    (h : groupOf m v = some k) :
    processRecord m s v =
      updateSeen s k (extendContact m ((lookupC s k).getD (initContact m v)) v) := by
  unfold processRecord
  rw [runStep_key m v s [] k h]

theorem runStep_fst (m : MappingConfig) (s : Seen) (w : List Warning) (v : Record) :
    (runStep m (s, w) v).1 = processRecord m s v := by
  cases hg : groupOf m v with
  | none =>
    have hn := (groupOf_none_iff m v).1 hg
    rw [runStep_empty m v s w hn, processRecord_empty m v s hg]
  | some k =>
    rw [runStep_key m v s w k hg, processRecord_key m v s k hg]

theorem foldl_runStep_fst (m : MappingConfig) :
    ∀ (rs : List Record) (s : Seen) (w : List Warning),
      (rs.foldl (runStep m) (s, w)).1 = rs.foldl (processRecord m) s := by
  intro rs
  induction rs with
  | nil => intro s w; rfl
  | cons v rs ih =>
    intro s w
    simp only [List.foldl_cons]
    have h := ih (runStep m (s, w) v).1 (runStep m (s, w) v).2
    rw [Prod.mk.eta] at h
    rw [runStep_fst m s w v] at h
    exact h

/-! ### Characterization of the accumulated `seen` map -/

/-- Effect of a run of group-`k` records on the contact stored at `k`. -/
def applyGroup (m : MappingConfig) : Option Contact → List Record → Option Contact
  | some c, grp => some (grp.foldl (extendContact m) c)
  | none, [] => none
  | none, g :: gs => some ((g :: gs).foldl (extendContact m) (initContact m g))

theorem lookupC_foldl (m : MappingConfig) :
    ∀ (rs : List Record) (s : Seen) (k : String),
      lookupC (rs.foldl (processRecord m) s) k =
        applyGroup m (lookupC s k) (groupRecords m rs k) := by
  intro rs
  induction rs with
  | nil =>
    intro s k
    cases h : lookupC s k <;> simp [groupRecords, applyGroup, h]
  | cons v rs ih =>
    intro s k
    simp only [List.foldl_cons]
    rw [ih]
    cases hg : groupOf m v with
    | none =>
      rw [processRecord_empty m v s hg]
      have hgr : groupRecords m (v :: rs) k = groupRecords m rs k := by
        simp [groupRecords, List.filter_cons, hg]
      rw [hgr]
    | some k' =>
      by_cases hk : k' = k
      · subst hk
        rw [processRecord_key m v s k' hg, lookupC_updateSeen_self]
        have hgr : groupRecords m (v :: rs) k' = v :: groupRecords m rs k' := by
          simp [groupRecords, List.filter_cons, hg]
        rw [hgr]
        cases h0 : lookupC s k' with
        | none => simp [applyGroup, List.foldl_cons]
        | some c => simp [applyGroup, List.foldl_cons]
      · rw [processRecord_key m v s k' hg,
          lookupC_updateSeen_ne s k' k _ (fun hh => hk hh.symm)]
        have hgr : groupRecords m (v :: rs) k = groupRecords m rs k := by
          simp [groupRecords, List.filter_cons, hg, hk]
        rw [hgr]

theorem lookupC_map_finalize (s : Seen) (k : String) :
    lookupC (s.map (fun p => (p.1, finalizeContact p.2))) k =
      (lookupC s k).map finalizeContact := by
  induction s with
  | nil => simp [lookupC]
  | cons p s ih =>
    by_cases h : p.1 = k
    · simp [lookupC, h]
    · simp [lookupC, h, ih]

theorem lookupC_aggregate (rs : List Record) (m : MappingConfig) (k : String) :
    lookupC (aggregate rs m) k =
      (applyGroup m none (groupRecords m rs k)).map finalizeContact := by
  unfold aggregate aggregateRaw
  rw [lookupC_map_finalize, lookupC_foldl]
  simp [lookupC]

theorem lookupC_aggregate_some (rs : List Record) (m : MappingConfig) (k : String)
    (c : Contact) :
    lookupC (aggregate rs m) k = some c ↔
      ∃ g0 gs, groupRecords m rs k = g0 :: gs ∧
        c = finalizeContact ((g0 :: gs).foldl (extendContact m) (initContact m g0)) := by
  rw [lookupC_aggregate]
  cases hgr : groupRecords m rs k with
  | nil => simp [applyGroup]
  | cons g0 gs =>
    simp only [applyGroup, Option.map_some]
    constructor
    · intro h
      exact ⟨g0, gs, rfl, (Option.some.inj h).symm⟩
    · rintro ⟨g0', gs', heq, hc⟩
      have h1 : g0' = g0 := (List.cons.injEq _ _ _ _ ▸ heq.symm).1
      have h2 : gs' = gs := (List.cons.injEq _ _ _ _ ▸ heq.symm).2
      subst h1; subst h2
      simp [hc]

/-! ### Components of the accumulated contact -/

theorem foldl_extend_name (m : MappingConfig) :
    ∀ (grp : List Record) (c : Contact), (grp.foldl (extendContact m) c).name = c.name := by
  intro grp
  induction grp with
  | nil => intro c; rfl
  | cons g grp ih => intro c; simp [List.foldl_cons, ih, extendContact]

theorem foldl_extend_destinations (m : MappingConfig) :
    ∀ (grp : List Record) (c : Contact),
      (grp.foldl (extendContact m) c).destinations =
        c.destinations ++ grp.map (mkDestination m) := by
  intro grp
  induction grp with
  | nil => intro c; simp
  | cons g grp ih => intro c; simp [List.foldl_cons, ih, extendContact]

theorem foldl_extend_labels (m : MappingConfig) :
    ∀ (grp : List Record) (c : Contact),
      (grp.foldl (extendContact m) c).labels =
        c.labels ++ grp.flatMap (fun v => m.labelFields.map (fun f => getField v f)) := by
  intro grp
  induction grp with
  | nil => intro c; simp
  | cons g grp ih => intro c; simp [List.foldl_cons, ih, extendContact]

theorem foldl_extend_vars (m : MappingConfig) :
    ∀ (grp : List Record) (c : Contact),
      (grp.foldl (extendContact m) c).vars =
        grp.foldl (fun vs v => varFold v m.variableFields vs) c.vars := by
  intro grp
  induction grp with
  | nil => intro c; rfl
  | cons g grp ih => intro c; simp [List.foldl_cons, ih, extendContact]

/-! ### The output dedup passes -/

theorem dedupDest_not_seen :
    ∀ (ds : List Destination) (seen : List String) (d : Destination),
      d ∈ dedupDestinations seen ds → d.destination ∉ seen := by
  intro ds
  induction ds with
  | nil => intro seen d h; simp [dedupDestinations] at h
  | cons x ds ih =>
    intro seen d h
    by_cases hx : seen.contains x.destination
    · rw [dedupDestinations, if_pos hx] at h
      exact ih seen d h
    · rw [dedupDestinations, if_neg hx] at h
      rcases List.mem_cons.1 h with h | h
      · subst h
        simpa using hx
      · have := ih _ _ h
        intro hc
        exact this (List.mem_cons_of_mem _ hc)

theorem dedupDest_unique :
    ∀ (ds : List Destination) (seen : List String) (d d' : Destination),
      d ∈ dedupDestinations seen ds → d' ∈ dedupDestinations seen ds →
      d.destination = d'.destination → d = d' := by
  intro ds
  induction ds with
  | nil => intro seen d d' h; simp [dedupDestinations] at h
  | cons x ds ih =>
    intro seen d d' h h' heq
    by_cases hx : seen.contains x.destination
    · rw [dedupDestinations, if_pos hx] at h h'
      exact ih seen d d' h h' heq
    · rw [dedupDestinations, if_neg hx] at h h'
      rcases List.mem_cons.1 h with h | h <;> rcases List.mem_cons.1 h' with h' | h'
      · rw [h, h']
      · subst h
        have := dedupDest_not_seen ds _ d' h'
        exact absurd (List.mem_cons_self _ _) (heq ▸ this)
      · subst h'
        have := dedupDest_not_seen ds _ d h
        exact absurd (List.mem_cons_self _ _) (heq ▸ this)
      · exact ih _ d d' h h' heq

theorem dedupDest_first :
    ∀ (ds : List Destination) (seen : List String) (d : Destination),
      d ∈ dedupDestinations seen ds → findDest ds d.destination = some d := by
  intro ds
  induction ds with
  | nil => intro seen d h; simp [dedupDestinations] at h
  | cons x ds ih =>
    intro seen d h
    by_cases hx : seen.contains x.destination
    · rw [dedupDestinations, if_pos hx] at h
      have hne : ¬(x.destination = d.destination) := by
        intro hc
        exact dedupDest_not_seen ds seen d h (by simpa [← hc] using hx)
      rw [findDest, if_neg hne]
      exact ih seen d h
    · rw [dedupDestinations, if_neg hx] at h
      rcases List.mem_cons.1 h with h | h
      · subst h
        rw [findDest, if_pos rfl]
      · have hns := dedupDest_not_seen ds _ d h
        have hne : ¬(x.destination = d.destination) := by
          intro hc
          exact hns (by simp [hc])
        rw [findDest, if_neg hne]
        exact ih _ d h

theorem dedupDest_covers :
    ∀ (ds : List Destination) (seen : List String) (d : Destination), d ∈ ds →
      d.destination ∈ seen ∨
        ∃ e ∈ dedupDestinations seen ds, e.destination = d.destination := by
  intro ds
  induction ds with
  | nil => intro seen d h; simp at h
  | cons x ds ih =>
    intro seen d h
    by_cases hx : seen.contains x.destination
    · rw [dedupDestinations, if_pos hx]
      rcases List.mem_cons.1 h with h | h
      · subst h
        exact Or.inl (by simpa using hx)
      · exact ih seen d h
    · rw [dedupDestinations, if_neg hx]
      rcases List.mem_cons.1 h with h | h
      · subst h
        exact Or.inr ⟨d, List.mem_cons_self _ _, rfl⟩
      · rcases ih (x.destination :: seen) d h with hs | ⟨e, he, hee⟩
        · rcases List.mem_cons.1 hs with hs | hs
          · exact Or.inr ⟨x, List.mem_cons_self _ _, hs.symm⟩
          · exact Or.inl hs
        · exact Or.inr ⟨e, List.mem_cons_of_mem _ he, hee⟩

theorem mem_dedupLabels :
    ∀ (l : List String) (seen : List String) (x : String),
      x ∈ dedupLabels seen l ↔ x ∈ l ∧ x ∉ seen := by
  intro l
  induction l with
  | nil => intro seen x; simp [dedupLabels]
  | cons y l ih =>
    intro seen x
    by_cases hy : seen.contains y
    · have hy' : y ∈ seen := by simpa using hy
      rw [dedupLabels, if_pos hy, ih]
      constructor
      · rintro ⟨hl, hs⟩
        exact ⟨List.mem_cons_of_mem _ hl, hs⟩
      · rintro ⟨hl, hs⟩
        rcases List.mem_cons.1 hl with h | h
        · exact absurd (h ▸ hy') hs
        · exact ⟨h, hs⟩
    · have hy' : y ∉ seen := by simpa using hy
      rw [dedupLabels, if_neg hy]
      constructor
      · intro h
        rcases List.mem_cons.1 h with h | h
        · subst h
          exact ⟨List.mem_cons_self _ _, hy'⟩
        · rcases (ih _ _).1 h with ⟨hl, hs⟩
          refine ⟨List.mem_cons_of_mem _ hl, ?_⟩
          intro hc
          exact hs (List.mem_cons_of_mem _ hc)
      · rintro ⟨hl, hs⟩
        rcases List.mem_cons.1 hl with h | h
        · exact h ▸ List.mem_cons_self _ _
        · by_cases hxy : x = y
          · exact hxy ▸ List.mem_cons_self _ _
          · refine List.mem_cons_of_mem _ ((ih _ _).2 ⟨h, ?_⟩)
            intro hc
            rcases List.mem_cons.1 hc with hc | hc
            · exact hxy hc
            · exact hs hc

theorem dedupLabels_sublist :
    ∀ (l : List String) (seen : List String), List.Sublist (dedupLabels seen l) l := by
  intro l
  induction l with
  | nil => intro seen; simp [dedupLabels]
  | cons y l ih =>
    intro seen
    by_cases hy : seen.contains y
    · rw [dedupLabels, if_pos hy]
      exact List.Sublist.cons _ (ih seen)
    · rw [dedupLabels, if_neg hy]
      exact List.Sublist.cons₂ _ (ih _)

theorem dedupLabels_nodup :
    ∀ (l : List String) (seen : List String), (dedupLabels seen l).Nodup := by
  intro l
  induction l with
  | nil => intro seen; simp [dedupLabels]
  | cons y l ih =>
    intro seen
    by_cases hy : seen.contains y
    · rw [dedupLabels, if_pos hy]
      exact ih seen
    · rw [dedupLabels, if_neg hy]
      refine List.nodup_cons.2 ⟨?_, ih _⟩
      intro hc
      exact ((mem_dedupLabels l _ y).1 hc).2 (List.mem_cons_self _ _)

/-! ### Variables across a whole group -/

theorem lookupVar_groupVarFold_last (fields : List String) (f : String) (hf : f ∈ fields) :
    ∀ (grp : List Record) (vs : List (String × String)) (h : grp ≠ []),
      lookupVar (grp.foldl (fun vs v => varFold v fields vs) vs) f =
        some (getField (grp.getLast h) f) := by
  intro grp
  induction grp with
  | nil => intro vs h; exact absurd rfl h
  | cons g grp ih =>
    intro vs h
    cases grp with
    | nil =>
      simp only [List.foldl_cons, List.foldl_nil, List.getLast_singleton]
      exact lookupVar_varFold_mem g fields vs f hf
    | cons g' grp' =>
      have h' : (g' :: grp') ≠ [] := by simp
      rw [List.foldl_cons, ih (varFold g fields vs) h']
      rw [List.getLast_cons h']

theorem containsVar_groupVarFold (fields : List String) (f : String) :
    ∀ (grp : List Record) (vs : List (String × String)),
      containsVar (grp.foldl (fun vs v => varFold v fields vs) vs) f =
        (containsVar vs f || (decide (f ∈ fields) && decide (grp ≠ []))) := by
  intro grp
  induction grp with
  | nil => intro vs; simp
  | cons g grp ih =>
    intro vs
    rw [List.foldl_cons, ih (varFold g fields vs), containsVar_varFold]
    by_cases hf : f ∈ fields <;> simp [hf]

/-! ### Normalization facts -/

theorem normalizeDestination_data (s : String) :
    (normalizeDestination s).data = '+' :: s.data.filter Char.isDigit := by
  unfold normalizeDestination
  rw [String.data_append]
  rfl

theorem normalizeDestination_idem (s : String) :
    normalizeDestination (normalizeDestination s) = normalizeDestination s := by
  apply String.ext
  rw [normalizeDestination_data, normalizeDestination_data]
  have h1 : Char.isDigit '+' = false := rfl
  simp [List.filter_cons, h1, List.filter_filter]

theorem normalizeDestination_no_digits (s : String)
    (h : ∀ c ∈ s.data, c.isDigit = false) : normalizeDestination s = "+" := by
  apply String.ext
  rw [normalizeDestination_data]
  have : s.data.filter Char.isDigit = [] := List.filter_eq_nil_iff.2 (by
    intro c hc
    simp [h c hc])
  rw [this]

/-! ### The worked example of `examples/functions/unique_contact` -/

def exMapping : MappingConfig :=
  ⟨"name", "code", "destination", ["foo_label"], ["foo_variable", "bar_variable"],
    ["name", "foo_variable"]⟩

def exRecords : List Record :=
  [[("name", "foo1"), ("code", "1"), ("destination", "123"), ("foo_label", "local"),
    ("foo_variable", "foo"), ("bar_variable", "bar")],
   [("name", "foo1"), ("code", "1"), ("destination", "456"), ("foo_label", "local"),
    ("foo_variable", "foo"), ("bar_variable", "bar")],
   [("name", "foo1"), ("code", "2"), ("destination", "789"), ("foo_label", "other"),
    ("foo_variable", "foo"), ("bar_variable", "bar")],
   [("name", "bar1"), ("code", "1"), ("destination", "123"), ("foo_label", "local"),
    ("foo_variable", "foo"), ("bar_variable", "bar")]]

/-- Claim C1: running `aggregate` on the four example records with the example
mapping yields exactly two group keys: `foo1-foo`, with name `foo1`, labels
`["local","other"]`, variables `foo_variable=foo, bar_variable=bar` and
destinations `(1,+123),(1,+456),(2,+789)`; and `bar1-foo`, with name `bar1`,
labels `["local"]`, the same variables and destination `(1,+123)`. -/
theorem uc_C1 :
    (aggregate exRecords exMapping).length = 2 ∧
    lookupC (aggregate exRecords exMapping) "foo1-foo" =
      some ⟨"foo1", [⟨"1", "+123"⟩, ⟨"1", "+456"⟩, ⟨"2", "+789"⟩], ["local", "other"],
        [("foo_variable", "foo"), ("bar_variable", "bar")]⟩ ∧
    lookupC (aggregate exRecords exMapping) "bar1-foo" =
      some ⟨"bar1", [⟨"1", "+123"⟩], ["local"],
        [("foo_variable", "foo"), ("bar_variable", "bar")]⟩ :=
  ⟨rfl, rfl, rfl⟩

/-- Claim C8: destination normalization (strip the non-digits, prefix `+`) is
idempotent for every input string: the spec's "false in general" reading is
wrong, `normalize (normalize x) = normalize x` holds of all `x`. -/
theorem uc_C8 (x : String) :
    normalizeDestination (normalizeDestination x) = normalizeDestination x :=
  normalizeDestination_idem x

/-- Claim C3: a record that is not skipped is grouped under the key formed by
the non-empty `group_by_fields` values in declared order joined with `-`,
falling back to the stripped name when none were collected; one loop step
creates or extends exactly that key and leaves every other key untouched. -/
theorem uc_C3 (m : MappingConfig) (v : Record)
    (hn : stripSpaces (getField v m.nameField) ≠ "") :
    groupOf m v = some (if keyFieldsOf m v = []
        then stripSpaces (getField v m.nameField)
        else String.intercalate "-" (keyFieldsOf m v)) ∧
    (∀ s : Seen,
      lookupC (processRecord m s v) (if keyFieldsOf m v = []
        then stripSpaces (getField v m.nameField)
        else String.intercalate "-" (keyFieldsOf m v)) ≠ none) ∧
    (∀ (s : Seen) (k : String),
      k ≠ (if keyFieldsOf m v = []
        then stripSpaces (getField v m.nameField)
        else String.intercalate "-" (keyFieldsOf m v)) →
      lookupC (processRecord m s v) k = lookupC s k) := by
  have hg : groupOf m v = some (keyOf m v (stripSpaces (getField v m.nameField))) := by
    unfold groupOf
    simp [hn]
  have hkey : keyOf m v (stripSpaces (getField v m.nameField)) =
      (if keyFieldsOf m v = [] then stripSpaces (getField v m.nameField)
        else String.intercalate "-" (keyFieldsOf m v)) := rfl
  refine ⟨hkey ▸ hg, ?_, ?_⟩
  · intro s
    rw [← hkey, processRecord_key m v s _ hg, lookupC_updateSeen_self]
    simp
  · intro s k hk
    rw [← hkey] at hk
    rw [processRecord_key m v s _ hg, lookupC_updateSeen_ne _ _ _ _ hk]

/-- Witness for C3 at a concrete record. -/
theorem uc_C3_witness :
    groupOf exMapping (exRecords.headI) = some (if keyFieldsOf exMapping (exRecords.headI) = []
        then stripSpaces (getField (exRecords.headI) exMapping.nameField)
        else String.intercalate "-" (keyFieldsOf exMapping (exRecords.headI))) ∧
    (∀ s : Seen,
      lookupC (processRecord exMapping s (exRecords.headI))
        (if keyFieldsOf exMapping (exRecords.headI) = []
          then stripSpaces (getField (exRecords.headI) exMapping.nameField)
          else String.intercalate "-" (keyFieldsOf exMapping (exRecords.headI))) ≠ none) ∧
    (∀ (s : Seen) (k : String),
      k ≠ (if keyFieldsOf exMapping (exRecords.headI) = []
          then stripSpaces (getField (exRecords.headI) exMapping.nameField)
          else String.intercalate "-" (keyFieldsOf exMapping (exRecords.headI))) →
      lookupC (processRecord exMapping s (exRecords.headI)) k = lookupC s k) :=
  uc_C3 exMapping (exRecords.headI) (by decide)

/-- A record whose name field is all whitespace, including an ideographic
space U+3000 (whitespace above Latin-1). -/
def blankRecord : Record :=
  [("name", "  \t\u3000 "), ("code", "9"), ("destination", "555"), ("foo_label", "x"),
    ("foo_variable", "x"), ("bar_variable", "y")]

/-- Claim C4: a record whose stripped name is empty is skipped: one loop step
on it only records the empty-name warning and leaves the `seen` map unchanged,
and the whole aggregation of any record list containing it equals the
aggregation with that record removed — a warning, never a failure. -/
theorem uc_C4 (m : MappingConfig) (v : Record)
    (h : stripSpaces (getField v m.nameField) = "") :
    (∀ (s : Seen) (w : List Warning),
      runStep m (s, w) v = (s, w ++ [Warning.emptyName])) ∧
    (∀ pre post : List Record,
      aggregate (pre ++ v :: post) m = aggregate (pre ++ post) m) := by
  constructor
  · intro s w
    exact runStep_empty m v s w h
  · intro pre post
    unfold aggregate aggregateRaw
    rw [List.foldl_append, List.foldl_append, List.foldl_cons,
      processRecord_empty m v _ ((groupOf_none_iff m v).2 h)]

/-- Witness for C4 at a concrete all-whitespace-name record. -/
theorem uc_C4_witness :
    (∀ (s : Seen) (w : List Warning),
      runStep exMapping (s, w) blankRecord = (s, w ++ [Warning.emptyName])) ∧
    (∀ pre post : List Record,
      aggregate (pre ++ blankRecord :: post) exMapping = aggregate (pre ++ post) exMapping) :=
  uc_C4 exMapping blankRecord (by decide)

/-- The aggregated contact the worked example produces for key `foo1-foo`. -/
def fooContact : Contact :=
  ⟨"foo1", [⟨"1", "+123"⟩, ⟨"1", "+456"⟩, ⟨"2", "+789"⟩], ["local", "other"],
    [("foo_variable", "foo"), ("bar_variable", "bar")]⟩

/-- Claim C5: the name stored under any result key is the stripped name of the
first record (in input order) assigned to that key, and processing a further
record of an existing group never changes the stored name. -/
theorem uc_C5 (rs : List Record) (m : MappingConfig) (k : String) (c : Contact)
    (h : lookupC (aggregate rs m) k = some c) :
    (∃ g0 gs, groupRecords m rs k = g0 :: gs ∧
      c.name = stripSpaces (getField g0 m.nameField)) ∧
    (∀ (s : Seen) (v : Record) (c' : Contact),
      groupOf m v = some k → lookupC s k = some c' →
      ∃ c'', lookupC (processRecord m s v) k = some c'' ∧ c''.name = c'.name) := by
  constructor
  · rcases (lookupC_aggregate_some rs m k c).1 h with ⟨g0, gs, hgr, hc⟩
    refine ⟨g0, gs, hgr, ?_⟩
    rw [hc]
    show ((g0 :: gs).foldl (extendContact m) (initContact m g0)).name = _
    rw [foldl_extend_name]
    rfl
  · intro s v c' hg hl
    refine ⟨extendContact m c' v, ?_, rfl⟩
    rw [processRecord_key m v s k hg, hl, lookupC_updateSeen_self]
    exact rfl

/-- Witness for C5 at the worked example. -/
theorem uc_C5_witness :
    lookupC (aggregate exRecords exMapping) "foo1-foo" = some fooContact ∧
    ((∃ g0 gs, groupRecords exMapping exRecords "foo1-foo" = g0 :: gs ∧
      fooContact.name = stripSpaces (getField g0 exMapping.nameField)) ∧
    (∀ (s : Seen) (v : Record) (c' : Contact),
      groupOf exMapping v = some "foo1-foo" → lookupC s "foo1-foo" = some c' →
      ∃ c'', lookupC (processRecord exMapping s v) "foo1-foo" = some c'' ∧
        c''.name = c'.name)) :=
  ⟨rfl, uc_C5 exRecords exMapping "foo1-foo" fooContact rfl⟩

/-- Claim C6: for every declared variable field, the final value stored for a
group is the one carried by the last record of the group in input order; a
record that overwrites an already-present variable field produces an
`overwrite` warning while the step still updates the map exactly as the
warning-free projection does (never an error). -/
theorem uc_C6 (rs : List Record) (m : MappingConfig) (k : String) (c : Contact)
    (h : lookupC (aggregate rs m) k = some c) :
    (∀ f ∈ m.variableFields, ∃ g0 gs,
      ∃ _hne : groupRecords m rs k = g0 :: gs,
      lookupVar c.vars f = some (getField ((g0 :: gs).getLast (List.cons_ne_nil g0 gs)) f)) ∧
    (∀ (s : Seen) (w : List Warning) (v : Record) (k' : String) (c0 : Contact) (f : String),
      groupOf m v = some k' → lookupC s k' = some c0 → f ∈ m.variableFields →
      containsVar c0.vars f = true →
      Warning.overwrite f ∈ (runStep m (s, w) v).2 ∧
        (runStep m (s, w) v).1 = processRecord m s v) := by
  constructor
  · intro f hf
    rcases (lookupC_aggregate_some rs m k c).1 h with ⟨g0, gs, hgr, hc⟩
    refine ⟨g0, gs, hgr, ?_⟩
    have hv : c.vars = (g0 :: gs).foldl (fun vs v => varFold v m.variableFields vs) [] := by
      rw [hc]
      show ((g0 :: gs).foldl (extendContact m) (initContact m g0)).vars = _
      rw [foldl_extend_vars]
      rfl
    rw [hv]
    exact lookupVar_groupVarFold_last m.variableFields f hf (g0 :: gs) []
      (List.cons_ne_nil g0 gs)
  · intro s w v k' c0 f hg hl hf hcv
    constructor
    · rw [runStep_key m v s w k' hg, hl]
      exact setVarsW_overwrite v m.variableFields c0.vars w f hf hcv
    · exact runStep_fst m s w v

/-- Witness for C6 at the worked example (both example records of group
`foo1-foo` after the first overwrite `foo_variable`). -/
theorem uc_C6_witness :
    lookupC (aggregate exRecords exMapping) "foo1-foo" = some fooContact ∧
    ((∀ f ∈ exMapping.variableFields, ∃ g0 gs,
      ∃ _hne : groupRecords exMapping exRecords "foo1-foo" = g0 :: gs,
      lookupVar fooContact.vars f =
        some (getField ((g0 :: gs).getLast (List.cons_ne_nil g0 gs)) f)) ∧
    (∀ (s : Seen) (w : List Warning) (v : Record) (k' : String) (c0 : Contact) (f : String),
      groupOf exMapping v = some k' → lookupC s k' = some c0 →
      f ∈ exMapping.variableFields → containsVar c0.vars f = true →
      Warning.overwrite f ∈ (runStep exMapping (s, w) v).2 ∧
        (runStep exMapping (s, w) v).1 = processRecord exMapping s v)) :=
  ⟨rfl, uc_C6 exRecords exMapping "foo1-foo" fooContact rfl⟩

/-- Claim C7: a group's result labels are the concatenation, over its records
in input order, of all `label_fields` values in declared order, with every
repeated string removed except its first occurrence (a duplicate-free
subsequence with the same members); in particular `[a,b,a,c]` dedups to
`[a,b,c]`. -/
theorem uc_C7 (rs : List Record) (m : MappingConfig) (k : String) (c : Contact)
    (h : lookupC (aggregate rs m) k = some c) :
    c.labels = dedupLabels []
      ((groupRecords m rs k).flatMap (fun v => m.labelFields.map (fun f => getField v f))) ∧
    List.Sublist c.labels
      ((groupRecords m rs k).flatMap (fun v => m.labelFields.map (fun f => getField v f))) ∧
    (∀ x, x ∈ c.labels ↔
      x ∈ (groupRecords m rs k).flatMap (fun v => m.labelFields.map (fun f => getField v f))) ∧
    c.labels.Nodup ∧
    dedupLabels [] ["a", "b", "a", "c"] = ["a", "b", "c"] := by
  rcases (lookupC_aggregate_some rs m k c).1 h with ⟨g0, gs, hgr, hc⟩
  have hlab : c.labels = dedupLabels []
      ((g0 :: gs).flatMap (fun v => m.labelFields.map (fun f => getField v f))) := by
    rw [hc]
    show dedupLabels [] (((g0 :: gs).foldl (extendContact m) (initContact m g0)).labels) = _
    rw [foldl_extend_labels]
    rfl
  rw [hgr]
  refine ⟨hlab, ?_, ?_, ?_, by decide⟩
  · rw [hlab]
    exact dedupLabels_sublist _ _
  · intro x
    rw [hlab, mem_dedupLabels]
    simp
  · rw [hlab]
    exact dedupLabels_nodup _ _

/-- Witness for C7 at the worked example. -/
theorem uc_C7_witness :
    lookupC (aggregate exRecords exMapping) "foo1-foo" = some fooContact ∧
    (fooContact.labels = dedupLabels []
      ((groupRecords exMapping exRecords "foo1-foo").flatMap
        (fun v => exMapping.labelFields.map (fun f => getField v f))) ∧
    List.Sublist fooContact.labels
      ((groupRecords exMapping exRecords "foo1-foo").flatMap
        (fun v => exMapping.labelFields.map (fun f => getField v f))) ∧
    (∀ x, x ∈ fooContact.labels ↔
      x ∈ (groupRecords exMapping exRecords "foo1-foo").flatMap
        (fun v => exMapping.labelFields.map (fun f => getField v f))) ∧
    fooContact.labels.Nodup ∧
    dedupLabels [] ["a", "b", "a", "c"] = ["a", "b", "c"]) :=
  ⟨rfl, uc_C7 exRecords exMapping "foo1-foo" fooContact rfl⟩

/-- A mapping with no group-by, label or variable fields: grouping is by name. -/
def dupMapping : MappingConfig := ⟨"name", "code", "destination", [], [], []⟩

/-- Two records whose destination values normalize to the same digits string
(`123`) while their codes differ. -/
def dupRecords : List Record :=
  [[("name", "a"), ("code", "1"), ("destination", "123")],
   [("name", "a"), ("code", "2"), ("destination", "1-2-3")]]

/-- The contact the duplicate-destination example aggregates to. -/
def dupContact : Contact := ⟨"a", [⟨"1", "+123"⟩], [], []⟩

/-- Claim C2: within one group the output destinations are unique by the
normalized destination string; each retained entry is the first destination
(in input order over the group's records) carrying its string — so its code is
the first record's code — and every group record's normalized string is
represented, later duplicates being dropped even when their code differs. -/
theorem uc_C2 (rs : List Record) (m : MappingConfig) (k : String) (c : Contact)
    (h : lookupC (aggregate rs m) k = some c) :
    (∀ d ∈ c.destinations, ∀ d' ∈ c.destinations,
      d.destination = d'.destination → d = d') ∧
    (∀ d ∈ c.destinations,
      findDest ((groupRecords m rs k).map (mkDestination m)) d.destination = some d) ∧
    (∀ v ∈ groupRecords m rs k, ∃ e ∈ c.destinations,
      e.destination = (mkDestination m v).destination) := by
  rcases (lookupC_aggregate_some rs m k c).1 h with ⟨g0, gs, hgr, hc⟩
  have hdest : c.destinations =
      dedupDestinations [] ((g0 :: gs).map (mkDestination m)) := by
    rw [hc]
    show dedupDestinations []
        (((g0 :: gs).foldl (extendContact m) (initContact m g0)).destinations) = _
    rw [foldl_extend_destinations]
    rfl
  rw [hgr, hdest]
  refine ⟨?_, ?_, ?_⟩
  · intro d hd d' hd' heq
    exact dedupDest_unique _ _ d d' hd hd' heq
  · intro d hd
    exact dedupDest_first _ _ d hd
  · intro v hv
    rcases dedupDest_covers ((g0 :: gs).map (mkDestination m)) [] (mkDestination m v)
        (List.mem_map_of_mem _ hv) with hs | he
    · simp at hs
    · exact he

/-- Witness for C2: two records with destinations `123` and `1-2-3` and codes
`1` and `2` collapse to the single entry `(1, +123)`. -/
theorem uc_C2_witness :
    lookupC (aggregate dupRecords dupMapping) "a" = some dupContact ∧
    ((∀ d ∈ dupContact.destinations, ∀ d' ∈ dupContact.destinations,
      d.destination = d'.destination → d = d') ∧
    (∀ d ∈ dupContact.destinations,
      findDest ((groupRecords dupMapping dupRecords "a").map (mkDestination dupMapping))
        d.destination = some d) ∧
    (∀ v ∈ groupRecords dupMapping dupRecords "a", ∃ e ∈ dupContact.destinations,
      e.destination = (mkDestination dupMapping v).destination)) :=
  ⟨rfl, uc_C2 dupRecords dupMapping "a" dupContact rfl⟩

/-- Claim C9: the variables of any aggregated contact have exactly the
declared `variable_fields` as key set: every declared field is present (even
when absent or empty in the records), and no other key ever appears. -/
theorem uc_C9 (rs : List Record) (m : MappingConfig) (k : String) (c : Contact)
    (h : lookupC (aggregate rs m) k = some c) :
    ∀ f : String, f ∈ m.variableFields ↔ ∃ x, lookupVar c.vars f = some x := by
  rcases (lookupC_aggregate_some rs m k c).1 h with ⟨g0, gs, hgr, hc⟩
  have hv : c.vars = (g0 :: gs).foldl (fun vs v => varFold v m.variableFields vs) [] := by
    rw [hc]
    show ((g0 :: gs).foldl (extendContact m) (initContact m g0)).vars = _
    rw [foldl_extend_vars]
    rfl
  intro f
  have hcv := containsVar_groupVarFold m.variableFields f (g0 :: gs) []
  rw [containsVar_eq_isSome] at hcv
  rw [hv]
  constructor
  · intro hf
    have hs : (lookupVar ((g0 :: gs).foldl
        (fun vs v => varFold v m.variableFields vs) []) f).isSome = true := by
      rw [hcv]
      simp [containsVar, hf]
    rcases Option.isSome_iff_exists.1 hs with ⟨x, hx⟩
    exact ⟨x, hx⟩
  · rintro ⟨x, hx⟩
    have hs : (lookupVar ((g0 :: gs).foldl
        (fun vs v => varFold v m.variableFields vs) []) f).isSome = true := by
      rw [hx]
      rfl
    rw [hcv] at hs
    simpa [containsVar] using hs

/-- Witness for C9 at the worked example. -/
theorem uc_C9_witness :
    lookupC (aggregate exRecords exMapping) "foo1-foo" = some fooContact ∧
    (∀ f : String, f ∈ exMapping.variableFields ↔
      ∃ x, lookupVar fooContact.vars f = some x) :=
  ⟨rfl, uc_C9 exRecords exMapping "foo1-foo" fooContact rfl⟩

/-- A record whose destination value contains no digit at all. -/
def letterRecord : Record := [("name", "x"), ("destination", "abc-")]

/-- Claim C10: a record whose destination-field value has no digit (also an
empty or absent field) produces the destination string `+` exactly, and a
destination list all of whose strings are `+` collapses to its first entry
under the output dedup pass. -/
theorem uc_C10 (m : MappingConfig) (v : Record)
    (h : ∀ ch ∈ (getField v m.destinationField).data, ch.isDigit = false) :
    (mkDestination m v).destination = "+" ∧
    (∀ l : List Destination, (∀ d ∈ l, d.destination = "+") →
      dedupDestinations [] l = l.take 1) := by
  constructor
  · exact normalizeDestination_no_digits _ h
  · intro l hl
    cases l with
    | nil => rfl
    | cons d ds =>
      have hplus : ∀ ds' : List Destination, (∀ x ∈ ds', x.destination = "+") →
          dedupDestinations ["+"] ds' = [] := by
        intro ds'
        induction ds' with
        | nil => intro _; rfl
        | cons x ds' ih =>
          intro hx
          have h1 : x.destination = "+" := hx x (List.mem_cons_self _ _)
          rw [dedupDestinations, if_pos (by simp [h1])]
          exact ih (fun y hy => hx y (List.mem_cons_of_mem _ hy))
      have hd : d.destination = "+" := hl d (List.mem_cons_self _ _)
      rw [dedupDestinations, if_neg (by simp), hd]
      rw [hplus ds (fun y hy => hl y (List.mem_cons_of_mem _ hy))]
      rfl

/-- Witness for C10 at a digit-free destination value. -/
theorem uc_C10_witness :
    (∀ ch ∈ (getField letterRecord dupMapping.destinationField).data,
      ch.isDigit = false) ∧
    ((mkDestination dupMapping letterRecord).destination = "+" ∧
    (∀ l : List Destination, (∀ d ∈ l, d.destination = "+") →
      dedupDestinations [] l = l.take 1)) :=
  ⟨by decide, uc_C10 dupMapping letterRecord (by decide)⟩
